import Mathlib

/-!
# Verification of the BemiDB PostgreSQL→Iceberg sync orchestrator

Shallow embedding of `src/syncer.go` (and the relevant configuration
semantics of `src/config.go`).  Pure Lean functions mirror the Go code:

* `splitComma`            — `strings.Split(s, ",")` (single-character separator);
* `shouldSyncTable`       — the table-qualification test of `SyncFromPostgres`
  (`syncTable := tableName == "*"` plus the `onlyTablesMap` membership check);
* `listPgSchemas`         — the `information_schema.schemata` query with its
  `NOT IN ('pg_catalog','pg_toast','information_schema')` clause, over an
  explicit list of all schema names of the source database;
* `listPgSchemaTables`    — the `pg_class` query restricted to one schema,
  over an explicit list of all base tables of the source database;
* `qualifyingTables`      — the nested schema/table enumeration-and-filter
  loop of `SyncFromPostgres`;
* `readRows`/`nextBatch`  — the batch-fetch closure passed to
  `icebergWriter.Write` in `syncFromPgTable`, with its sticky `reachedEnd`
  flag; CSV reads are modelled as a list of `ReadResult`s (a data row, or a
  read failure — `csv.Reader.Read` returning a non-nil error, which covers
  both `io.EOF` and parse errors; end of the list is `io.EOF`);
* `pullList`/`afterPulls` — the destination writer driving the pull-based
  pipeline until it yields an empty batch (fuel-indexed for executability);
* `arrayPosition`/`pgTableSchemaColumns` — the column-metadata query with its
  `ORDER BY array_position($3, column_name)` clause (SQL `array_position`
  returns NULL for an absent name and ascending ORDER BY puts NULLs last,
  modelled by `List.indexOf` which maps absent names to `header.length`);
* `prefixedTables`/`deleteOldIcebergSchemaTables` — reconciliation;
* `syncFromPostgresTrace` — the order of externally visible write/delete
  calls made by one sync pass.
-/

/-- One table of the source database: `SchemaTable` of the Go code.
`parentTable` is the `ParentPartitionedTable` field (empty when the table is
not a partition); it does not participate in `String()`. -/
structure SchemaTable where
  Schema : String
  Table : String
  parentTable : String
deriving DecidableEq, Repr

/-- `SchemaTable.String()`: the canonical `"schema.table"` rendering. -/
def SchemaTable.String (st : SchemaTable) : String :=
  st.Schema ++ "." ++ st.Table

/-- One row of the column-metadata query of `pgTableSchemaColumns`
(`PgSchemaColumn` of the Go code).  Only `columnName` matters for ordering;
the remaining scanned fields are carried opaquely as strings. -/
structure PgSchemaColumn where
  columnName : String
  dataType : String
  udtName : String
  isNullable : String
  ordinalPosition : String
  characterMaximumLength : String
  numericPrecision : String
  numericScale : String
  datetimePrecision : String
deriving DecidableEq, Repr

/-- The source database state observed by the pass's snapshot transaction:
all rows of `information_schema.schemata`, and all base-table rows of
`pg_class` (each already tagged with its schema name). -/
structure PgCatalog where
  schemata : List String
  tables : List SchemaTable
deriving DecidableEq, Repr

/-- `strings.Split(s, ",")` for the one-character separator `','`:
splits at every comma, performs no trimming, and yields `[""]` on the
empty string (Go semantics). -/
def splitCommaAux : List Char → List Char → List String
  | [], acc => [String.mk acc.reverse]
  | c :: cs, acc =>
    if c = ',' then String.mk acc.reverse :: splitCommaAux cs []
    else splitCommaAux cs (c :: acc)

/-- `strings.Split(s, ",")` of `SyncFromPostgres`. -/
def splitComma (s : String) : List String :=
  splitCommaAux s.data []

/-- The key set of `onlyTablesMap`: empty when the configured allow-list is
the wildcard `"*"`, otherwise the comma-split entries. -/
def onlyTablesKeys (cfg : String) : List String :=
  if cfg = "*" then [] else splitComma cfg

/-- The qualification test of `SyncFromPostgres`:
`syncTable := tableName == "*"`, then set to `true` when `tableName` is a
key of `onlyTablesMap`. -/
def shouldSyncTable (cfg tableName : String) : Bool :=
  (tableName == "*") || (onlyTablesKeys cfg).contains tableName

/-- The names excluded by the `schemata` query's `NOT IN` clause. -/
def systemSchemas : List String :=
  ["pg_catalog", "pg_toast", "information_schema"]

/-- `listPgSchemas`: the schema-listing query, over all schema names of the
source database. -/
def listPgSchemas (allSchemas : List String) : List String :=
  allSchemas.filter (fun s => !(systemSchemas.contains s))

/-- `listPgSchemaTables`: the base-table query restricted to one schema
(`WHERE pg_namespace.nspname = $1`). -/
def listPgSchemaTables (cat : PgCatalog) (schema : String) : List SchemaTable :=
  cat.tables.filter (fun t => t.Schema == schema)

/-- The nested loop of `SyncFromPostgres`, iterated over the already-listed
schema names: per schema, the tables of that schema that pass the
qualification test, appended in enumeration order. -/
def syncSchemasLoop (cfg : String) (cat : PgCatalog) : List String → List SchemaTable
  | [] => []
  | schema :: rest =>
    (listPgSchemaTables cat schema).filter (fun t => shouldSyncTable cfg t.Table)
      ++ syncSchemasLoop cfg cat rest

/-- The `pgSchemaTables` list recorded by `SyncFromPostgres`: every
enumerated table that qualifies under the configured allow-list, in
enumeration order.  Each such table is also synced immediately. -/
def qualifyingTables (cfg : String) (cat : PgCatalog) : List SchemaTable :=
  syncSchemasLoop cfg cat (listPgSchemas cat.schemata)

/-- The hard-coded maximum batch row count of `syncer.go`. -/
def BATCH_SIZE : Nat := 10000

/-- One `csvReader.Read()` outcome inside the batch-fetch closure: a data
row, or a read failure (`err != nil`).  `csv.Reader.Read` reports genuine
end-of-data as `io.EOF` — modelled as running off the end of the list — and
any other parse failure as a non-nil `*csv.ParseError`, modelled as a
`parseError` element sitting in front of whatever data would follow it. -/
inductive ReadResult where
  | row (fields : List String)
  | parseError
deriving DecidableEq, Repr

/-- The mutable state captured by the batch-fetch closure of
`syncFromPgTable`: the unread remainder of the CSV stream and the sticky
`reachedEnd` flag. -/
structure BatchState where
  stream : List ReadResult
  reachedEnd : Bool
deriving DecidableEq, Repr

/-- The inner `for` loop of the batch-fetch closure: keep reading rows,
stopping with `ended = true` on any read failure, or with `ended = false`
once the accumulated batch reaches `n` rows. -/
def readRows (n : Nat) : List ReadResult → List (List String) → List (List String) × List ReadResult × Bool
  | [], rows => (rows, [], true)
  | ReadResult.parseError :: rest, rows => (rows, rest, true)
  | ReadResult.row r :: rest, rows =>
    if n ≤ (rows ++ [r]).length then (rows ++ [r], rest, false)
    else readRows n rest (rows ++ [r])

/-- One invocation of the batch-fetch closure: return an empty batch
immediately when `reachedEnd` is already set, otherwise run the read loop
and record its end flag. -/
def nextBatch (n : Nat) (s : BatchState) : List (List String) × BatchState :=
  if s.reachedEnd then ([], s)
  else
    ((readRows n s.stream []).1,
      BatchState.mk (readRows n s.stream []).2.1 (readRows n s.stream []).2.2)

/-- The destination writer driving the pipeline: pull batches until one
comes back empty (fuel-indexed so the recursion is structural; any
`fuel > stream.length` is enough to exhaust the stream). -/
def pullList (n : Nat) : Nat → BatchState → List (List (List String))
  | 0, _ => []
  | fuel + 1, s =>
    if s.reachedEnd then []
    else if (nextBatch n s).1.isEmpty then []
    else (nextBatch n s).1 :: pullList n fuel (nextBatch n s).2

/-- The pipeline state after `k` pulls. -/
def afterPulls (n : Nat) : Nat → BatchState → BatchState
  | 0, s => s
  | k + 1, s => afterPulls n k (nextBatch n s).2

/-- The spec's §8 example export: 5 data rows under header
`[id, name, created_at]`. -/
def exampleRows : List (List String) :=
  [["1", "ada", "2024-01-01"], ["2", "bo", "2024-01-02"], ["3", "cy", "2024-01-03"],
    ["4", "di", "2024-01-04"], ["5", "ed", "2024-01-05"]]

/-- Fresh pipeline state over the example export. -/
def exampleState : BatchState :=
  BatchState.mk (exampleRows.map ReadResult.row) false

/-- SQL `array_position(arr, x)` as used by the `ORDER BY` of the
column-metadata query: the 0-based position of `x` in `arr` (the 1-based
offset of SQL is irrelevant to ordering), with an absent `x` — where SQL
yields NULL, which ascending `ORDER BY` places last — mapped to
`arr.length`, larger than every present position. -/
def arrayPosition (arr : List String) (x : String) : Nat :=
  arr.indexOf x

/-- `pgTableSchemaColumns`: the column-metadata query for one table, over the
table's catalog column rows, returned `ORDER BY array_position($3,
column_name)` where `$3` is the already-observed CSV export header. -/
def pgTableSchemaColumns (catalogCols : List PgSchemaColumn) (csvHeader : List String) :
    List PgSchemaColumn :=
  List.insertionSort
    (fun a b => arrayPosition csvHeader a.columnName ≤ arrayPosition csvHeader b.columnName)
    catalogCols

/-- The prefixing step of `deleteOldIcebergSchemaTables`: each synced table's
schema name gets the configured destination schema-name prefix (the rebuilt
`SchemaTable` carries no parent-partition field, as in the Go code). -/
def prefixedTables (prefixStr : String) (ts : List SchemaTable) : List SchemaTable :=
  ts.map (fun t => SchemaTable.mk (prefixStr ++ t.Schema) t.Table "")

/-- `deleteOldIcebergSchemaTables`: the destination schemas (first component,
compared by schema name) and destination tables (second component, compared
by canonical `"schema.table"` string) that the reconciliation step deletes,
in inventory order. -/
def deleteOldIcebergSchemaTables (prefixStr : String) (synced : List SchemaTable)
    (icebergSchemas : List String) (icebergSchemaTables : List SchemaTable) :
    List String × List SchemaTable :=
  (icebergSchemas.filter
      (fun s => !((prefixedTables prefixStr synced).any (fun pt => s == pt.Schema))),
    icebergSchemaTables.filter
      (fun t => !((prefixedTables prefixStr synced).any (fun pt => t.String == pt.String))))

/-- An externally visible collaborator call of one sync pass: a per-table
`icebergWriter.Write`, an `icebergWriter.DeleteSchema`, or an
`icebergWriter.DeleteSchemaTable`. -/
inductive SyncEvent where
  | writeTable (t : SchemaTable)
  | deleteSchema (s : String)
  | deleteTable (t : SchemaTable)
deriving DecidableEq, Repr

/-- Whether an event is a per-table write. -/
def isWriteEvent : SyncEvent → Bool
  | SyncEvent.writeTable _ => true
  | _ => false

/-- Whether an event is a destination delete. -/
def isDeleteEvent : SyncEvent → Bool
  | SyncEvent.writeTable _ => false
  | _ => true

/-- The collaborator-call order of `SyncFromPostgres`: one write per
qualifying table, emitted inside the enumeration loop, followed by the
reconciliation deletes (`deleteOldIcebergSchemaTables` runs after the loop:
schema deletes first, then table deletes). -/
def syncFromPostgresTrace (cfg prefixStr : String) (cat : PgCatalog)
    (icebergSchemas : List String) (icebergSchemaTables : List SchemaTable) : List SyncEvent :=
  (qualifyingTables cfg cat).map SyncEvent.writeTable ++
    ((deleteOldIcebergSchemaTables prefixStr (qualifyingTables cfg cat)
          icebergSchemas icebergSchemaTables).1.map SyncEvent.deleteSchema ++
      (deleteOldIcebergSchemaTables prefixStr (qualifyingTables cfg cat)
          icebergSchemas icebergSchemaTables).2.map SyncEvent.deleteTable)

/-- A concrete `id` column row for the worked examples. -/
def exampleColId : PgSchemaColumn :=
  PgSchemaColumn.mk "id" "integer" "int4" "NO" "1" "0" "32" "0" "0"

/-- A concrete `name` column row for the worked examples. -/
def exampleColName : PgSchemaColumn :=
  PgSchemaColumn.mk "name" "text" "text" "YES" "2" "0" "0" "0" "0"

/-- A concrete `created_at` column row for the worked examples. -/
def exampleColCreatedAt : PgSchemaColumn :=
  PgSchemaColumn.mk "created_at" "timestamp without time zone" "timestamp" "NO" "3" "0" "0" "0" "6"

/-- `s ∈ listPgSchemas allSchemas` iff `s` is a source schema that is none of
the three system schemas. -/
theorem mem_listPgSchemas (allSchemas : List String) (s : String) :
    s ∈ listPgSchemas allSchemas ↔
      s ∈ allSchemas ∧ s ≠ "pg_catalog" ∧ s ≠ "pg_toast" ∧ s ≠ "information_schema" := by
  simp [listPgSchemas, systemSchemas, List.mem_filter, and_assoc]

/-- Membership in the enumeration-and-filter loop. -/
theorem mem_syncSchemasLoop (cfg : String) (cat : PgCatalog) (schemas : List String)
    (st : SchemaTable) :
    st ∈ syncSchemasLoop cfg cat schemas ↔
      st.Schema ∈ schemas ∧ st ∈ cat.tables ∧ shouldSyncTable cfg st.Table = true := by
  induction schemas with
  | nil => simp [syncSchemasLoop]
  | cons s rest ih =>
    simp only [syncSchemasLoop, List.mem_append, List.mem_filter, listPgSchemaTables,
      List.mem_cons, ih, beq_iff_eq]
    constructor
    · rintro (⟨⟨hmem, hsch⟩, hq⟩ | ⟨hs, hmem, hq⟩)
      · exact ⟨Or.inl hsch, hmem, hq⟩
      · exact ⟨Or.inr hs, hmem, hq⟩
    · rintro ⟨hs | hs, hmem, hq⟩
      · exact Or.inl ⟨⟨hmem, hs⟩, hq⟩
      · exact Or.inr ⟨hs, hmem, hq⟩

/-- Membership in the recorded synced-table set. -/
theorem mem_qualifyingTables (cfg : String) (cat : PgCatalog) (st : SchemaTable) :
    st ∈ qualifyingTables cfg cat ↔
      st.Schema ∈ listPgSchemas cat.schemata ∧ st ∈ cat.tables ∧
        shouldSyncTable cfg st.Table = true :=
  mem_syncSchemasLoop cfg cat (listPgSchemas cat.schemata) st

/-- C1: under the wildcard allow-list `"*"` (the configured default),
`SyncFromPostgres` initializes `syncTable := tableName == "*"` with an empty
`onlyTablesMap`, so an ordinary table such as `customers` does NOT qualify —
the claim (and §4.5/§8 of the spec, and the flag's own documented default
"sync everything" semantics) says every enumerated table must qualify.  With
a non-wildcard list the membership path works as claimed. -/
theorem shouldSyncTable_wildcard_bug :
    shouldSyncTable "*" "customers" = false ∧
      shouldSyncTable "customers" "customers" = true ∧
      shouldSyncTable "*" "*" = true := by
  decide

/-- C8: the schema-listing operation returns exactly the source schemas whose
names are not `pg_catalog`, `pg_toast`, or `information_schema`. -/
theorem listPgSchemas_correct (allSchemas : List String) (s : String) :
    s ∈ listPgSchemas allSchemas ↔
      s ∈ allSchemas ∧ s ≠ "pg_catalog" ∧ s ≠ "pg_toast" ∧ s ≠ "information_schema" :=
  mem_listPgSchemas allSchemas s

/-- `dropLast` over a cons cell with a non-empty tail. -/
theorem dropLast_cons_ne_nil {α : Type} (a : α) (l : List α) (h : l ≠ []) :
    (a :: l).dropLast = a :: l.dropLast := by
  cases l with
  | nil => exact absurd rfl h
  | cons b t => rfl

/-- The read loop never exceeds `n` rows, and returns exactly `n` rows
whenever it stopped without hitting a read failure. -/
theorem readRows_length (n : Nat) (s : List ReadResult) :
    ∀ acc : List (List String), acc.length < n →
      (readRows n s acc).1.length ≤ n ∧
        ((readRows n s acc).2.2 = false → (readRows n s acc).1.length = n) := by
  induction s with
  | nil =>
    intro acc hacc
    refine ⟨Nat.le_of_lt hacc, fun h => ?_⟩
    simp [readRows] at h
  | cons x rest ih =>
    intro acc hacc
    cases x with
    | parseError =>
      refine ⟨Nat.le_of_lt hacc, fun h => ?_⟩
      simp [readRows] at h
    | row r =>
      simp only [readRows]
      by_cases hfill : n ≤ (acc ++ [r]).length
      · have hlen : (acc ++ [r]).length = acc.length + 1 := by simp
        rw [if_pos hfill]
        refine ⟨?_, fun _ => ?_⟩
        · show (acc ++ [r]).length ≤ n
          omega
        · show (acc ++ [r]).length = n
          omega
      · rw [if_neg hfill]
        have hlt : (acc ++ [r]).length < n := by
          have : (acc ++ [r]).length = acc.length + 1 := by simp
          omega
        exact ih (acc ++ [r]) hlt

/-- Once `reachedEnd` is set the closure returns the empty batch and leaves
the state — in particular the unread stream — untouched. -/
theorem nextBatch_sticky (n : Nat) (s : BatchState) (h : s.reachedEnd = true) :
    nextBatch n s = ([], s) := by
  simp [nextBatch, h]

/-- A pipeline whose end flag is set yields no further batches. -/
theorem pullList_reachedEnd (n fuel : Nat) (s : BatchState) (h : s.reachedEnd = true) :
    pullList n fuel s = [] := by
  cases fuel with
  | zero => rfl
  | succ fuel => simp [pullList, h]

/-- Every batch the pipeline yields is non-empty and holds at most `n`
rows. -/
theorem pullList_batch_le (n : Nat) (hn : 0 < n) :
    ∀ (fuel : Nat) (s : BatchState) (b : List (List String)),
      b ∈ pullList n fuel s → b ≠ [] ∧ b.length ≤ n := by
  intro fuel
  induction fuel with
  | zero =>
    intro s b hb
    simp [pullList] at hb
  | succ fuel ih =>
    intro s b hb
    cases hs : s.reachedEnd with
    | true => rw [pullList_reachedEnd n (fuel + 1) s hs] at hb; simp at hb
    | false =>
      simp only [pullList, hs, Bool.false_eq_true, if_false] at hb
      by_cases hemp : (nextBatch n s).1.isEmpty
      · simp [hemp] at hb
      · rw [if_neg hemp] at hb
        rcases List.mem_cons.1 hb with hb | hb
        · subst hb
          have h1 : (nextBatch n s).1 = (readRows n s.stream []).1 := by
            simp [nextBatch, hs]
          constructor
          · intro hnil
            rw [hnil] at hemp
            exact hemp rfl
          · rw [h1]
            exact (readRows_length n s.stream [] (by simpa using hn)).1
        · exact ih (nextBatch n s).2 b hb

/-- Every batch the pipeline yields, except possibly the final one, holds
exactly `n` rows. -/
theorem pullList_dropLast_length (n : Nat) (hn : 0 < n) :
    ∀ (fuel : Nat) (s : BatchState) (b : List (List String)),
      b ∈ (pullList n fuel s).dropLast → b.length = n := by
  intro fuel
  induction fuel with
  | zero =>
    intro s b hb
    simp [pullList] at hb
  | succ fuel ih =>
    intro s b hb
    cases hs : s.reachedEnd with
    | true => rw [pullList_reachedEnd n (fuel + 1) s hs] at hb; simp at hb
    | false =>
      simp only [pullList, hs, Bool.false_eq_true, if_false] at hb
      by_cases hemp : (nextBatch n s).1.isEmpty
      · simp [hemp] at hb
      · rw [if_neg hemp] at hb
        by_cases hrest : pullList n fuel (nextBatch n s).2 = []
        · rw [hrest] at hb
          simp [List.dropLast] at hb
        · rw [dropLast_cons_ne_nil _ _ hrest] at hb
          rcases List.mem_cons.1 hb with hb | hb
          · subst hb
            have hflag : (nextBatch n s).2.reachedEnd = false := by
              cases hf : (nextBatch n s).2.reachedEnd with
              | false => rfl
              | true => exact absurd (pullList_reachedEnd n fuel _ hf) hrest
            have h2 : (nextBatch n s).2.reachedEnd = (readRows n s.stream []).2.2 := by
              simp [nextBatch, hs]
            have h1 : (nextBatch n s).1 = (readRows n s.stream []).1 := by
              simp [nextBatch, hs]
            rw [h1]
            exact (readRows_length n s.stream [] (by simpa using hn)).2 (by rw [← h2]; exact hflag)
          · exact ih (nextBatch n s).2 b hb

/-- Running the read loop over a pure row stream with a read failure spliced
in behaves exactly like running it over the rows alone: same batch, same end
flag, and the post-failure remainder is only reached when the failure itself
was consumed. -/
theorem readRows_rowStream (n : Nat) (post : List ReadResult) :
    ∀ (pre : List (List String)) (acc : List (List String)),
      ∃ pre2 : List (List String),
        (readRows n (pre.map ReadResult.row) acc).2.1 = pre2.map ReadResult.row ∧
          readRows n (pre.map ReadResult.row ++ ReadResult.parseError :: post) acc =
            ((readRows n (pre.map ReadResult.row) acc).1,
              if (readRows n (pre.map ReadResult.row) acc).2.2 then post
              else pre2.map ReadResult.row ++ ReadResult.parseError :: post,
              (readRows n (pre.map ReadResult.row) acc).2.2) := by
  intro pre
  induction pre with
  | nil =>
    intro acc
    exact ⟨[], by simp [readRows], by simp [readRows]⟩
  | cons r pre ih =>
    intro acc
    by_cases hfill : n ≤ (acc ++ [r]).length
    · have hfill2 : n ≤ acc.length + 1 := by simpa using hfill
      refine ⟨pre, ?_, ?_⟩
      · simp [readRows, hfill2]
      · simp [readRows, hfill2]
    · obtain ⟨pre2, h1, h2⟩ := ih (acc ++ [r])
      refine ⟨pre2, ?_, ?_⟩
      · simp only [List.map_cons, readRows, if_neg hfill]
        exact h1
      · simp only [List.map_cons, List.cons_append, readRows, if_neg hfill]
        exact h2

/-- C3: for every stream and maximum batch row count `n ≥ 1`, every batch the
pipeline yields except possibly the last contains exactly `n` rows; every
yielded batch is non-empty with at most `n` rows; once the end flag is set
every further pull returns empty immediately, leaving the state (hence the
stream) untouched; and on the spec's §8 example (batch size 2, 5 data rows)
the pulls yield batch sizes `[2, 2, 1]`, after which the end flag is set and
the next pull — and by stickiness every later one — is empty. -/
theorem pipeline_batches_c3 (n fuel : Nat) (s : BatchState) (hn : 0 < n) :
    (∀ b ∈ (pullList n fuel s).dropLast, b.length = n) ∧
      (∀ b ∈ pullList n fuel s, b ≠ [] ∧ b.length ≤ n) ∧
      (∀ t : BatchState, t.reachedEnd = true → nextBatch n t = ([], t)) ∧
      (pullList 2 10 exampleState).map List.length = [2, 2, 1] ∧
      (afterPulls 2 3 exampleState).reachedEnd = true ∧
      nextBatch 2 (afterPulls 2 3 exampleState) = ([], afterPulls 2 3 exampleState) :=
  ⟨fun b hb => pullList_dropLast_length n hn fuel s b hb,
    fun b hb => pullList_batch_le n hn fuel s b hb,
    fun t ht => nextBatch_sticky n t ht,
    by decide, by decide, by decide⟩

/-- C3 witness: the general theorem instantiated at batch size 2 over the
spec's example stream; the concrete projection evaluates the pipeline. -/
theorem pipeline_batches_c3_witness :
    (pullList 2 10 exampleState).map List.length = [2, 2, 1] :=
  (pipeline_batches_c3 2 10 exampleState (by decide)).2.2.2.1

/-- C2 counterexample: the batch-fetch closure treats a CSV read failure that
is NOT genuine end-of-data exactly like end-of-data.  Pulling from a stream
whose first read is a parse failure yields the empty batch (the pipeline's
end-of-stream signal) with the end flag set — byte-for-byte the same
behaviour as pulling from a genuinely exhausted stream — and a pass over
`row ["a"], parse failure, row ["b"]` silently delivers `[["a"]]` and
continues; nothing is fatal and `["b"]` is lost. -/
theorem batch_read_error_not_fatal_cex :
    nextBatch 2 (BatchState.mk [ReadResult.parseError, ReadResult.row ["b"]] false) =
        ([], BatchState.mk [ReadResult.row ["b"]] true) ∧
      nextBatch 2 (BatchState.mk ([] : List ReadResult) false) =
        ([], BatchState.mk [] true) ∧
      pullList 2 5 (BatchState.mk
          [ReadResult.row ["a"], ReadResult.parseError, ReadResult.row ["b"]] false) =
        [[["a"]]] := by
  decide

/-- C2 amended: EVERY read failure — genuine end-of-data and any other parse
failure alike — terminates the table's stream early and is treated as
end-of-stream by the pipeline; no read failure is fatal to the pass (the
closure has no error path at all).  Formally, the pipeline over a row stream
with a parse failure spliced in yields exactly the batches of the stream
truncated at the failure, for every batch size and fuel. -/
theorem batch_read_error_ends_stream (n fuel : Nat) (pre : List (List String))
    (post : List ReadResult) :
    pullList n fuel (BatchState.mk (pre.map ReadResult.row ++ ReadResult.parseError :: post) false) =
      pullList n fuel (BatchState.mk (pre.map ReadResult.row) false) := by
  induction fuel generalizing pre post with
  | zero => rfl
  | succ fuel ih =>
    obtain ⟨pre2, h1, h2⟩ := readRows_rowStream n post pre []
    have hleft : nextBatch n (BatchState.mk (pre.map ReadResult.row ++ ReadResult.parseError :: post) false) =
        ((readRows n (pre.map ReadResult.row) []).1,
          BatchState.mk
            (if (readRows n (pre.map ReadResult.row) []).2.2 then post
              else pre2.map ReadResult.row ++ ReadResult.parseError :: post)
            (readRows n (pre.map ReadResult.row) []).2.2) := by
      simp only [nextBatch, Bool.false_eq_true, if_false]
      rw [h2]
    have hright : nextBatch n (BatchState.mk (pre.map ReadResult.row) false) =
        ((readRows n (pre.map ReadResult.row) []).1,
          BatchState.mk (pre2.map ReadResult.row) (readRows n (pre.map ReadResult.row) []).2.2) := by
      simp only [nextBatch, Bool.false_eq_true, if_false]
      rw [h1]
    simp only [pullList, Bool.false_eq_true, if_false, hleft, hright]
    by_cases hemp : (readRows n (pre.map ReadResult.row) []).1.isEmpty
    · simp [hemp]
    · rw [if_neg hemp, if_neg hemp]
      cases hflag : (readRows n (pre.map ReadResult.row) []).2.2 with
      | true =>
        rw [pullList_reachedEnd n fuel _ rfl, pullList_reachedEnd n fuel _ rfl]
      | false =>
        simp only [Bool.false_eq_true, if_false]
        rw [ih pre2 post]

/-- A destination schema is deleted iff no synced table's prefixed schema
name matches it exactly. -/
theorem mem_deleteOldSchemas (prefixStr : String) (synced : List SchemaTable)
    (isch : List String) (itab : List SchemaTable) (s : String) :
    s ∈ (deleteOldIcebergSchemaTables prefixStr synced isch itab).1 ↔
      s ∈ isch ∧ ∀ u ∈ synced, s ≠ prefixStr ++ u.Schema := by
  simp [deleteOldIcebergSchemaTables, prefixedTables, List.mem_filter]

/-- A destination table is deleted iff no synced table's prefixed canonical
`"schema.table"` string matches it exactly. -/
theorem mem_deleteOldTables (prefixStr : String) (synced : List SchemaTable)
    (isch : List String) (itab : List SchemaTable) (t : SchemaTable) :
    t ∈ (deleteOldIcebergSchemaTables prefixStr synced isch itab).2 ↔
      t ∈ itab ∧ ∀ u ∈ synced, t.String ≠ prefixStr ++ u.Schema ++ "." ++ u.Table := by
  simp [deleteOldIcebergSchemaTables, prefixedTables, List.mem_filter, SchemaTable.String]

/-- C4: reconciliation deletes exactly the destination schemas and
destination tables whose canonical name has no exact match in the prefixed
synced set, and deletes nothing when the destination inventory is covered by
the prefixed synced set. -/
theorem reconciliation_exact_c4 (prefixStr : String) (synced : List SchemaTable)
    (isch : List String) (itab : List SchemaTable) :
    (∀ s : String,
        s ∈ (deleteOldIcebergSchemaTables prefixStr synced isch itab).1 ↔
          s ∈ isch ∧ ∀ u ∈ synced, s ≠ prefixStr ++ u.Schema) ∧
      (∀ t : SchemaTable,
          t ∈ (deleteOldIcebergSchemaTables prefixStr synced isch itab).2 ↔
            t ∈ itab ∧ ∀ u ∈ synced, t.String ≠ prefixStr ++ u.Schema ++ "." ++ u.Table) ∧
      ((∀ s ∈ isch, ∃ u ∈ synced, s = prefixStr ++ u.Schema) →
        (∀ t ∈ itab, ∃ u ∈ synced, t.String = prefixStr ++ u.Schema ++ "." ++ u.Table) →
        (deleteOldIcebergSchemaTables prefixStr synced isch itab).1 = [] ∧
          (deleteOldIcebergSchemaTables prefixStr synced isch itab).2 = []) := by
  refine ⟨mem_deleteOldSchemas prefixStr synced isch itab,
    mem_deleteOldTables prefixStr synced isch itab, fun hs ht => ⟨?_, ?_⟩⟩
  · rw [List.eq_nil_iff_forall_not_mem]
    intro s hmem
    obtain ⟨hin, hno⟩ := (mem_deleteOldSchemas prefixStr synced isch itab s).1 hmem
    obtain ⟨u, hu, hequ⟩ := hs s hin
    exact hno u hu hequ
  · rw [List.eq_nil_iff_forall_not_mem]
    intro t hmem
    obtain ⟨hin, hno⟩ := (mem_deleteOldTables prefixStr synced isch itab t).1 hmem
    obtain ⟨u, hu, hequ⟩ := ht t hin
    exact hno u hu hequ

/-- C4 witness: a destination inventory identical to the prefixed synced set
produces no deletions. -/
theorem reconciliation_exact_c4_witness :
    (deleteOldIcebergSchemaTables "p_" [SchemaTable.mk "public" "orders" ""]
          ["p_public"] [SchemaTable.mk "p_public" "orders" ""]).1 = [] ∧
      (deleteOldIcebergSchemaTables "p_" [SchemaTable.mk "public" "orders" ""]
          ["p_public"] [SchemaTable.mk "p_public" "orders" ""]).2 = [] :=
  (reconciliation_exact_c4 "p_" [SchemaTable.mk "public" "orders" ""]
      ["p_public"] [SchemaTable.mk "p_public" "orders" ""]).2.2
    (by decide) (by decide)

/-- C9: a destination schema present in the inventory survives reconciliation
iff at least one table synced this pass has exactly that prefixed schema
name; consequently a destination schema to which no synced table maps — for
instance the counterpart of a source schema whose tables were all filtered
out, or which has no tables — is deleted even though the schema still exists
in the source catalog. -/
theorem reconcile_schema_keep_iff_c9 (cfg prefixStr : String) (cat : PgCatalog)
    (isch : List String) (itab : List SchemaTable) (d : String) (hd : d ∈ isch) :
    (d ∉ (deleteOldIcebergSchemaTables prefixStr (qualifyingTables cfg cat) isch itab).1 ↔
        ∃ t ∈ qualifyingTables cfg cat, prefixStr ++ t.Schema = d) ∧
      ((∀ t ∈ qualifyingTables cfg cat, prefixStr ++ t.Schema ≠ d) →
        d ∈ (deleteOldIcebergSchemaTables prefixStr (qualifyingTables cfg cat) isch itab).1) := by
  constructor
  · rw [mem_deleteOldSchemas]
    constructor
    · intro hnot
      by_contra hnone
      push_neg at hnone
      exact hnot ⟨hd, fun u hu => fun heq => hnone u hu (heq.symm)⟩
    · rintro ⟨t, htq, hteq⟩ ⟨_, hall⟩
      exact hall t htq hteq.symm
  · intro hnone
    rw [mem_deleteOldSchemas]
    exact ⟨hd, fun u hu heq => hnone u hu heq.symm⟩

/-- C9 witness: source schema `empty` exists in the catalog but contributes
no qualifying table, so its destination counterpart is deleted. -/
theorem reconcile_schema_keep_iff_c9_witness :
    "empty" ∈ (deleteOldIcebergSchemaTables ""
        (qualifyingTables "orders"
          (PgCatalog.mk ["public", "empty"] [SchemaTable.mk "public" "orders" ""]))
        ["public", "empty"] []).1 :=
  (reconcile_schema_keep_iff_c9 "orders" ""
      (PgCatalog.mk ["public", "empty"] [SchemaTable.mk "public" "orders" ""])
      ["public", "empty"] [] "empty" (by decide)).2 (by decide)

/-- C5: the column-descriptor sequence returned for a table is ordered
identically to the table's export header: whenever the header has no
duplicate names and the catalog's column rows carry exactly the header's
names (in whatever order the catalog produced them), the `ORDER BY
array_position(header, column_name)` query returns the descriptors so that
the descriptor at position `i` names the `i`-th header column.  The metadata
query takes the already-observed header as its input, so it can only run
after the export header has been read. -/
theorem columns_follow_header_c5 (catalogCols : List PgSchemaColumn) (csvHeader : List String)
    (hnd : csvHeader.Nodup)
    (hperm : (catalogCols.map PgSchemaColumn.columnName).Perm csvHeader) :
    (pgTableSchemaColumns catalogCols csvHeader).map PgSchemaColumn.columnName = csvHeader := by
  classical
  have hsortperm : (pgTableSchemaColumns catalogCols csvHeader).Perm catalogCols :=
    List.perm_insertionSort _ catalogCols
  have hnames :
      ((pgTableSchemaColumns catalogCols csvHeader).map PgSchemaColumn.columnName).Perm
        csvHeader :=
    (hsortperm.map PgSchemaColumn.columnName).trans hperm
  have hmemhdr :
      ∀ a ∈ (pgTableSchemaColumns catalogCols csvHeader).map PgSchemaColumn.columnName,
        a ∈ csvHeader :=
    fun a ha => hnames.mem_iff.1 ha
  have hndnames :
      ((pgTableSchemaColumns catalogCols csvHeader).map PgSchemaColumn.columnName).Nodup :=
    hnames.nodup_iff.2 hnd
  haveI : IsTotal PgSchemaColumn
      (fun a b => arrayPosition csvHeader a.columnName ≤ arrayPosition csvHeader b.columnName) :=
    ⟨fun a b => Nat.le_total _ _⟩
  haveI : IsTrans PgSchemaColumn
      (fun a b => arrayPosition csvHeader a.columnName ≤ arrayPosition csvHeader b.columnName) :=
    ⟨fun a b c => Nat.le_trans⟩
  have hsorted : (pgTableSchemaColumns catalogCols csvHeader).Sorted
      (fun a b => arrayPosition csvHeader a.columnName ≤ arrayPosition csvHeader b.columnName) :=
    List.sorted_insertionSort _ catalogCols
  have hpwle :
      ((pgTableSchemaColumns catalogCols csvHeader).map PgSchemaColumn.columnName).Pairwise
        (fun a b => arrayPosition csvHeader a ≤ arrayPosition csvHeader b) :=
    List.pairwise_map.2 hsorted
  have hpwlt :
      ((pgTableSchemaColumns catalogCols csvHeader).map PgSchemaColumn.columnName).Pairwise
        (fun a b => arrayPosition csvHeader a < arrayPosition csvHeader b) := by
    refine (hpwle.and hndnames).imp_of_mem ?_
    intro a b ha hb hab
    rcases hab with ⟨hle, hne⟩
    have hain := hmemhdr a ha
    have hbin := hmemhdr b hb
    have hkne : arrayPosition csvHeader a ≠ arrayPosition csvHeader b := by
      intro he
      exact hne ((List.indexOf_inj hain hbin).1 he)
    omega
  have hhdr : csvHeader.Pairwise
      (fun a b => arrayPosition csvHeader a < arrayPosition csvHeader b) := by
    rw [List.pairwise_iff_getElem]
    intro i j hi hj hij
    simp only [arrayPosition]
    rw [List.indexOf_getElem hnd i hi, List.indexOf_getElem hnd j hj]
    exact hij
  haveI : IsAntisymm String (fun a b => arrayPosition csvHeader a < arrayPosition csvHeader b) :=
    ⟨fun a b h1 h2 => absurd (Nat.lt_trans h1 h2) (Nat.lt_irrefl _)⟩
  exact List.eq_of_perm_of_sorted hnames hpwlt hhdr

/-- C5 witness: catalog rows arriving in catalog order
`[name, created_at, id]` are returned in export-header order
`[id, name, created_at]`. -/
theorem columns_follow_header_c5_witness :
    (pgTableSchemaColumns [exampleColName, exampleColCreatedAt, exampleColId]
          ["id", "name", "created_at"]).map PgSchemaColumn.columnName =
      ["id", "name", "created_at"] :=
  columns_follow_header_c5 [exampleColName, exampleColCreatedAt, exampleColId]
    ["id", "name", "created_at"] (by decide) (by decide)

/-- C6: allow-list entries that match no enumerated table are silently
ignored.  The pass is a total function (there is no error path tied to the
allow-list at all), and two non-wildcard allow-lists whose entry sets agree
on every enumerated table name — e.g. one extends the other by entries
naming no table in the catalog — produce the same synced set and the same
reconciliation deletions. -/
theorem allowlist_unmatched_ignored_c6 (cat : PgCatalog) (cfg1 cfg2 : String)
    (h1 : cfg1 ≠ "*") (h2 : cfg2 ≠ "*")
    (hsame : ∀ t ∈ cat.tables,
      (splitComma cfg1).contains t.Table = (splitComma cfg2).contains t.Table) :
    qualifyingTables cfg1 cat = qualifyingTables cfg2 cat ∧
      ∀ (prefixStr : String) (isch : List String) (itab : List SchemaTable),
        deleteOldIcebergSchemaTables prefixStr (qualifyingTables cfg1 cat) isch itab =
          deleteOldIcebergSchemaTables prefixStr (qualifyingTables cfg2 cat) isch itab := by
  have hq : qualifyingTables cfg1 cat = qualifyingTables cfg2 cat := by
    unfold qualifyingTables
    generalize listPgSchemas cat.schemata = schemas
    induction schemas with
    | nil => rfl
    | cons s rest ih =>
      simp only [syncSchemasLoop]
      rw [ih]
      congr 1
      apply List.filter_congr
      intro t ht
      have htt : t ∈ cat.tables := (List.mem_filter.1 ht).1
      simp only [shouldSyncTable, onlyTablesKeys, if_neg h1, if_neg h2, hsame t htt]
  exact ⟨hq, fun prefixStr isch itab => by rw [hq]⟩

/-- C6 witness: extending the allow-list `orders` by the entries `ghost` and
`missing`, which name no table of the catalog, changes nothing. -/
theorem allowlist_unmatched_ignored_c6_witness :
    qualifyingTables "orders"
        (PgCatalog.mk ["public"]
          [SchemaTable.mk "public" "orders" "", SchemaTable.mk "public" "logs" ""]) =
      qualifyingTables "orders,ghost,missing"
        (PgCatalog.mk ["public"]
          [SchemaTable.mk "public" "orders" "", SchemaTable.mk "public" "logs" ""]) :=
  (allowlist_unmatched_ignored_c6
      (PgCatalog.mk ["public"]
        [SchemaTable.mk "public" "orders" "", SchemaTable.mk "public" "logs" ""])
      "orders" "orders,ghost,missing" (by decide) (by decide) (by decide)).1

/-- An element picked inside the left part of an append. -/
theorem get_append_mem_left {α : Type} (W D : List α) (k : Nat) (hk : k < (W ++ D).length)
    (h : k < W.length) : (W ++ D).get ⟨k, hk⟩ ∈ W := by
  rw [List.get_eq_getElem, List.getElem_append_left h]
  exact List.getElem_mem h

/-- An element picked inside the right part of an append. -/
theorem get_append_mem_right {α : Type} (W D : List α) (k : Nat) (hk : k < (W ++ D).length)
    (h : W.length ≤ k) : (W ++ D).get ⟨k, hk⟩ ∈ D := by
  rw [List.get_eq_getElem, List.getElem_append_right h]
  exact List.getElem_mem _

/-- In a trace made of a write block followed by a delete block, every write
position precedes every delete position. -/
theorem append_write_lt_delete (W D : List SyncEvent)
    (hWall : ∀ e ∈ W, isDeleteEvent e = false)
    (hDall : ∀ e ∈ D, isWriteEvent e = false)
    (i j : Nat) (hi : i < (W ++ D).length) (hj : j < (W ++ D).length)
    (hw : isWriteEvent ((W ++ D).get ⟨i, hi⟩) = true)
    (hd : isDeleteEvent ((W ++ D).get ⟨j, hj⟩) = true) : i < j := by
  have hiW : i < W.length := by
    by_contra hni
    push_neg at hni
    have hmem := get_append_mem_right W D i hi hni
    rw [hDall _ hmem] at hw
    exact Bool.false_ne_true hw
  have hjW : W.length ≤ j := by
    by_contra hnj
    push_neg at hnj
    have hmem := get_append_mem_left W D j hj hnj
    rw [hWall _ hmem] at hd
    exact Bool.false_ne_true hd
  omega

/-- C7: within one pass, every per-table write strictly precedes every
reconciliation delete in the collaborator-call order — reconciliation runs
only after the export-and-write step of every qualifying table completed. -/
theorem writes_before_deletes_c7 (cfg prefixStr : String) (cat : PgCatalog)
    (isch : List String) (itab : List SchemaTable) (i j : Nat)
    (hi : i < (syncFromPostgresTrace cfg prefixStr cat isch itab).length)
    (hj : j < (syncFromPostgresTrace cfg prefixStr cat isch itab).length)
    (hw : isWriteEvent ((syncFromPostgresTrace cfg prefixStr cat isch itab).get ⟨i, hi⟩) = true)
    (hd : isDeleteEvent ((syncFromPostgresTrace cfg prefixStr cat isch itab).get ⟨j, hj⟩) = true) :
    i < j := by
  refine append_write_lt_delete ((qualifyingTables cfg cat).map SyncEvent.writeTable)
    ((deleteOldIcebergSchemaTables prefixStr (qualifyingTables cfg cat)
          isch itab).1.map SyncEvent.deleteSchema ++
      (deleteOldIcebergSchemaTables prefixStr (qualifyingTables cfg cat)
          isch itab).2.map SyncEvent.deleteTable)
    ?_ ?_ i j hi hj hw hd
  · intro e he
    obtain ⟨t, _, rfl⟩ := List.mem_map.1 he
    rfl
  · intro e he
    rcases List.mem_append.1 he with he | he
    · obtain ⟨s, _, rfl⟩ := List.mem_map.1 he
      rfl
    · obtain ⟨t, _, rfl⟩ := List.mem_map.1 he
      rfl

/-- C7 witness: in a pass that writes `public.t` and then deletes the stale
destination schema `old`, the write (position 0) precedes the delete
(position 1). -/
theorem writes_before_deletes_c7_witness : 0 < 1 :=
  writes_before_deletes_c7 "t" ""
    (PgCatalog.mk ["public"] [SchemaTable.mk "public" "t" ""]) ["old"] [] 0 1
    (by decide) (by decide) (by decide) (by decide)

/-- C10: a non-wildcard allow-list is split on commas with no trimming and
tested by exact equality on the bare table name — `shouldSyncTable` is true
iff the name is the literal `"*"` or one of the split entries; the entry
`" customers"` of `"orders, customers"` keeps its leading space and never
matches a table named `customers`; and the test ignores the schema, so a
table name occurring in several enumerated schemas qualifies in all of
them. -/
theorem allowlist_exact_split_c10 :
    (∀ cfg t : String, cfg ≠ "*" →
        (shouldSyncTable cfg t = true ↔ t = "*" ∨ t ∈ splitComma cfg)) ∧
      splitComma "orders, customers" = ["orders", " customers"] ∧
      shouldSyncTable "orders, customers" "customers" = false ∧
      (∀ (cfg : String) (cat : PgCatalog) (st : SchemaTable),
        st ∈ cat.tables → st.Schema ∈ listPgSchemas cat.schemata →
          shouldSyncTable cfg st.Table = true → st ∈ qualifyingTables cfg cat) := by
  refine ⟨?_, by decide, by decide, ?_⟩
  · intro cfg t hcfg
    simp [shouldSyncTable, onlyTablesKeys, if_neg hcfg]
  · intro cfg cat st hmem hsch hq
    exact (mem_qualifyingTables cfg cat st).2 ⟨hsch, hmem, hq⟩

/-- C10 witness: the table name `dup`, present in schemas `s1` and `s2`,
qualifies in both under allow-list `dup`. -/
theorem allowlist_exact_split_c10_witness :
    SchemaTable.mk "s2" "dup" "" ∈ qualifyingTables "dup"
        (PgCatalog.mk ["s1", "s2"]
          [SchemaTable.mk "s1" "dup" "", SchemaTable.mk "s2" "dup" ""]) :=
  allowlist_exact_split_c10.2.2.2 "dup"
    (PgCatalog.mk ["s1", "s2"] [SchemaTable.mk "s1" "dup" "", SchemaTable.mk "s2" "dup" ""])
    (SchemaTable.mk "s2" "dup" "") (by decide) (by decide) (by decide)
